import Mathlib

/-!
Verification of the sliding-window rate limiter of this repository.

The same structure appears twice in the source:
* `RateLimitMiddleware.dispatch` in `skills/fastapi/examples/middleware_examples.py`
  (purge with `t > window_start`, reject when `len >= requests_per_minute`,
  otherwise append `now`);
* the `rate_limit` dependency in `skills/fastapi/examples/auth_dependencies.py`
  (purge with `t > window_start`, raise 429 when `len >= limit`,
  otherwise append `now`).

Timestamps (Python `time.time()` floats) are modelled as rationals; the
limits (Python `int`) as integers.
-/

namespace RateLimiter

/-- The purge step shared by both sources: keep exactly the timestamps `t`
with `t > window_start` where `window_start = tNow - window`
(`middleware_examples.py` lines 166 and 170-172, `auth_dependencies.py`
lines 302 and 305). -/
def purge (window tNow : ℚ) (ts : List ℚ) : List ℚ :=
  ts.filter (fun t => decide (tNow - window < t))

/-- Result of one admission check: the boolean decision and the per-key
record after the call. -/
structure AdmitResult where
  admitted : Bool
  record : List ℚ
  deriving Repr, DecidableEq

/-- One admission check on a single key's record, as both sources perform
it: purge, compare the remaining count against the limit, reject leaving
the purged record, or append `tNow` and accept
(`middleware_examples.py` lines 165-184, `auth_dependencies.py`
lines 301-314). -/
def admission (limit : ℤ) (window tNow : ℚ) (ts : List ℚ) : AdmitResult :=
  let kept := purge window tNow ts
  if (kept.length : ℤ) < limit then
    { admitted := true, record := kept ++ [tNow] }
  else
    { admitted := false, record := kept }

/-- The record of one key after a sequence of admission checks at the
given arrival times, starting from the lazily-created empty record
(`defaultdict(list)` in both sources). -/
def recordAfter (limit : ℤ) (window : ℚ) (calls : List ℚ) : List ℚ :=
  calls.foldl (fun ts t => (admission limit window t ts).record) []

/-- Every timestamp in the record after one admission check was either
already recorded or is the arrival time of this call. -/
theorem mem_admit_record (limit : ℤ) (window tNow : ℚ) (ts : List ℚ)
    (t : ℚ) (h : t ∈ (admission limit window tNow ts).record) :
    t ∈ ts ∨ t = tNow := by
  unfold admission at h
  dsimp only at h
  split at h
  · rcases List.mem_append.mp h with hk | hk
    · exact Or.inl (List.mem_of_mem_filter hk)
    · exact Or.inr (List.mem_singleton.mp hk)
  · exact Or.inl (List.mem_of_mem_filter h)

/-- One admission check keeps the record sorted when the arrival time is
at least every recorded timestamp. -/
theorem admit_sorted (limit : ℤ) (window tNow : ℚ) (ts : List ℚ)
    (hs : List.Sorted (· ≤ ·) ts) (hle : ∀ t ∈ ts, t ≤ tNow) :
    List.Sorted (· ≤ ·) (admission limit window tNow ts).record := by
  have hkept : List.Sorted (· ≤ ·) (purge window tNow ts) :=
    hs.filter _
  unfold admission
  dsimp only
  split
  · refine List.pairwise_append.mpr ⟨hkept, List.pairwise_singleton _ _, ?_⟩
    intro a ha b hb
    rw [List.mem_singleton] at hb
    exact hb ▸ hle a (List.mem_of_mem_filter ha)
  · exact hkept

/-- Folding a sorted block of calls over a sorted record whose entries
precede every call yields a sorted record. -/
theorem foldl_admit_sorted (limit : ℤ) (window : ℚ) (calls : List ℚ) :
    ∀ ts : List ℚ, List.Sorted (· ≤ ·) ts →
    List.Sorted (· ≤ ·) calls →
    (∀ t ∈ ts, ∀ c ∈ calls, t ≤ c) →
    List.Sorted (· ≤ ·)
      (calls.foldl (fun r c => (admission limit window c r).record) ts) := by
  induction calls with
  | nil => intro ts hts _ _; simpa using hts
  | cons c rest ih =>
    intro ts hts hcs hcross
    rcases List.sorted_cons.mp hcs with ⟨hc_rest, hrest⟩
    simp only [List.foldl_cons]
    refine ih _ ?_ hrest ?_
    · exact admit_sorted limit window c ts hts
        (fun t ht => hcross t ht c (List.mem_cons_self c rest))
    · intro t ht c' hc'
      rcases mem_admit_record limit window c ts t ht with h | h
      · exact hcross t h c' (List.mem_cons_of_mem c hc')
      · exact h ▸ hc_rest c' hc'

/-- With a positive window, a burst of `k ≤ limit` calls at one instant
is recorded as `k` copies of that instant. -/
theorem recordAfter_replicate (limit : ℤ) (window t : ℚ) (hW : 0 < window)
    (k : ℕ) (hk : (k : ℤ) ≤ limit) :
    recordAfter limit window (List.replicate k t) = List.replicate k t := by
  induction k with
  | zero => simp [recordAfter]
  | succ n ih =>
    have hn : (n : ℤ) ≤ limit := by push_cast at hk ⊢; omega
    have hrec : recordAfter limit window (List.replicate n t)
        = List.replicate n t := ih hn
    have hkeep : purge window t (List.replicate n t) = List.replicate n t := by
      refine List.filter_eq_self.mpr ?_
      intro a ha
      rw [List.eq_of_mem_replicate ha]
      exact decide_eq_true (by linarith)
    rw [List.replicate_succ' n t]
    unfold recordAfter at hrec ⊢
    rw [List.foldl_append, hrec]
    simp only [List.foldl_cons, List.foldl_nil]
    unfold admission
    dsimp only
    rw [hkeep]
    rw [if_pos (by simpa using by push_cast at hk ⊢; omega)]

end RateLimiter

namespace AuthDeps

/-- The fields of the `User` model that `rate_limit` reads
(`auth_dependencies.py` lines 45-51): only `id : int` matters here. -/
structure User where
  id : ℤ
  deriving Repr, DecidableEq

/-- `RATE_LIMIT = 100` (`auth_dependencies.py` line 282). -/
def RATE_LIMIT : ℤ := 100

/-- `RATE_WINDOW = 60` (`auth_dependencies.py` line 283). -/
def RATE_WINDOW : ℚ := 60

/-- Key and cap selection of the `rate_limit` dependency
(`auth_dependencies.py` lines 293-299): an authenticated user is counted
under `"user:{id}"` with cap `RATE_LIMIT * 2`, an anonymous client under
`"ip:{host}"` with cap `RATE_LIMIT`. -/
def rateKeyLimit (currentUser : Option User) (clientHost : String) :
    String × ℤ :=
  match currentUser with
  | some u => ("user:" ++ toString u.id, RATE_LIMIT * 2)
  | none => ("ip:" ++ clientHost, RATE_LIMIT)

end AuthDeps

namespace RateLimiter

/-- Every timestamp in the record after a sequence of admission checks is
one of the arrival times of the sequence. -/
theorem mem_recordAfter_aux (limit : ℤ) (window : ℚ) (calls : List ℚ)
    (ts : List ℚ) (t : ℚ)
    (h : t ∈ calls.foldl
      (fun r c => (admission limit window c r).record) ts) :
    t ∈ ts ∨ t ∈ calls := by
  induction calls generalizing ts with
  | nil => exact Or.inl h
  | cons c rest ih =>
    rcases ih _ h with hmem | hmem
    · unfold admission at hmem
      dsimp only at hmem
      split at hmem
      · rcases List.mem_append.mp hmem with hk | hk
        · exact Or.inl (List.mem_of_mem_filter hk)
        · simp only [List.mem_singleton] at hk
          exact Or.inr (by simp [hk])
      · exact Or.inl (List.mem_of_mem_filter hmem)
    · exact Or.inr (List.mem_cons_of_mem _ hmem)

/-- The record never holds more than `limit` timestamps: one admission
step preserves the bound. -/
theorem admit_length_le (limit : ℤ) (window tNow : ℚ) (ts : List ℚ)
    (h : (ts.length : ℤ) ≤ limit) :
    ((admission limit window tNow ts).record.length : ℤ) ≤ limit := by
  have hk : ((purge window tNow ts).length : ℤ) ≤ (ts.length : ℤ) := by
    exact_mod_cast List.length_filter_le _ ts
  unfold admission
  dsimp only
  split
  next hlt =>
    dsimp only
    simp only [List.length_append, List.length_singleton]
    push_cast
    omega
  next hlt =>
    dsimp only
    omega

/-- The record built from the empty record never exceeds `limit`
timestamps, whatever the call pattern. -/
theorem recordAfter_length_le (limit : ℤ) (window : ℚ) (calls : List ℚ)
    (hl : 0 ≤ limit) :
    ((recordAfter limit window calls).length : ℤ) ≤ limit := by
  suffices h : ∀ ts : List ℚ, (ts.length : ℤ) ≤ limit →
      ((calls.foldl (fun r c => (admission limit window c r).record)
        ts).length : ℤ) ≤ limit by
    exact h [] (by simpa using hl)
  induction calls with
  | nil => intro ts h; simpa using h
  | cons c rest ih =>
    intro ts h
    exact ih _ (admit_length_le limit window c ts h)

end RateLimiter

namespace RateLimiter

/-- The retention rule as the spec's §4 "Effect" sentence words it:
a timestamp is retained if and only if it is not strictly older than
`t_now - window`, i.e. `t ≥ t_now - window`. Stated for comparison with
`purge`, which the source implements with a strict inequality. -/
def purgeSpec (window tNow : ℚ) (ts : List ℚ) : List ℚ :=
  ts.filter (fun t => decide (tNow - window ≤ t))

end RateLimiter

open RateLimiter AuthDeps

/-- C1: for every sequence of admission calls on one key with a fixed
positive limit `L` and window `W`, starting from the empty record, at no
point does the record hold more than `L` timestamps inside any half-open
trailing interval `(t - W, t]`. -/
theorem C1_trailing_window_cap (limit : ℤ) (window : ℚ) (calls : List ℚ)
    (t : ℚ) (hl : 0 < limit) :
    (((recordAfter limit window calls).filter
        (fun s => decide (t - window < s ∧ s ≤ t))).length : ℤ) ≤ limit := by
  have h1 := recordAfter_length_le limit window calls hl.le
  have h2 : ((recordAfter limit window calls).filter
      (fun s => decide (t - window < s ∧ s ≤ t))).length
      ≤ (recordAfter limit window calls).length :=
    List.length_filter_le _ _
  omega

/-- C1 witness: a concrete burst of four calls against limit 3. -/
theorem C1_trailing_window_cap_witness :
    (((recordAfter 3 60 [0, 0, 0, 0]).filter
        (fun s => decide ((10 : ℚ) - 60 < s ∧ s ≤ 10))).length : ℤ) ≤ 3 :=
  C1_trailing_window_cap 3 60 [0, 0, 0, 0] 10 (by norm_num)

/-- C2: on every record reachable from the empty record by admission calls
with a fixed limit and window, a rejected call leaves the record exactly
as it was: nothing is appended and nothing is purged. -/
theorem C2_reject_leaves_record (limit : ℤ) (window : ℚ) (calls : List ℚ)
    (tNow : ℚ) (hl : 0 ≤ limit)
    (hrej : (admission limit window tNow
      (recordAfter limit window calls)).admitted = false) :
    (admission limit window tNow (recordAfter limit window calls)).record
      = recordAfter limit window calls := by
  set ts := recordAfter limit window calls with hts
  have hlen : (ts.length : ℤ) ≤ limit :=
    recordAfter_length_le limit window calls hl
  by_cases hc : ((purge window tNow ts).length : ℤ) < limit
  · simp [admission, hc] at hrej
  · have hkle : (purge window tNow ts).length ≤ ts.length :=
      List.length_filter_le _ ts
    have hkeq : (purge window tNow ts).length = ts.length := by omega
    have heq : purge window tNow ts = ts :=
      (List.filter_sublist ts).eq_of_length hkeq
    have hc' : ¬ (ts.length : ℤ) < limit := by omega
    simp [admission, heq, hc']

/-- C2 witness: limit 1, one admitted call at time 0, a second call at
time 30 is rejected and the stored record stays `[0]`. -/
theorem C2_reject_leaves_record_witness :
    (admission 1 60 30 (recordAfter 1 60 [0])).record = recordAfter 1 60 [0] :=
  C2_reject_leaves_record 1 60 [0] 30 (by norm_num)
    (by norm_num [admission, purge, recordAfter, List.filter])

/-- C3 counterexample: at `t_now = 60`, `W = 60`, the recorded timestamp
`0` satisfies `0 ≥ t_now - W`, yet the source's purge removes it: the
code keeps `t` only when `t > t_now - W`, strictly, so the purge differs
from the spec's "strictly older" rule at the boundary. -/
theorem C3_boundary_counterexample :
    purge 60 60 [0] = [] ∧ (0 : ℚ) ≥ 60 - 60
      ∧ purge 60 60 [0] ≠ purgeSpec 60 60 [0] := by
  refine ⟨?_, by norm_num, ?_⟩ <;>
    norm_num [purge, purgeSpec, List.filter]

/-- C3 amended: the purge retains a timestamp `t` if and only if
`t > t_now - W` (a timestamp exactly `W` old is removed as well), and the
admission decision compares the limit against the count that remains
after exactly this purge. -/
theorem C3_purge_characterisation (limit : ℤ) (window tNow t : ℚ)
    (ts : List ℚ) :
    (t ∈ purge window tNow ts ↔ t ∈ ts ∧ tNow - window < t)
    ∧ (admission limit window tNow ts).admitted
      = decide (((purge window tNow ts).length : ℤ) < limit) := by
  constructor
  · simp [purge, List.mem_filter]
  · by_cases hc : ((purge window tNow ts).length : ℤ) < limit <;>
      simp [admission, hc]

/-- C4 counterexample: configured with `limit = 0`, the counter raises no
configuration error at construction or first use; the first call on a
fresh key simply returns rejected, i.e. it silently runs with zero
throughput. -/
theorem C4_no_fail_fast_counterexample :
    (admission 0 60 0 []).admitted = false
      ∧ (admission 0 60 1000 []).admitted = false := by
  constructor <;> norm_num [admission, purge, List.filter]

/-- C4 amended: neither source validates its configuration. With
`limit ≤ 0` every call is rejected (silent zero throughput); with
`window ≤ 0` and a positive limit, a call whose arrival time is at least
every recorded timestamp is always admitted (silent unlimited throughput
under non-decreasing clocks). -/
theorem C4_no_validation (limit : ℤ) (window tNow : ℚ) (ts : List ℚ) :
    (limit ≤ 0 → (admission limit window tNow ts).admitted = false)
    ∧ (window ≤ 0 → 0 < limit → (∀ t ∈ ts, t ≤ tNow) →
        (admission limit window tNow ts).admitted = true) := by
  constructor
  · intro hl
    have hge : (0 : ℤ) ≤ ((purge window tNow ts).length : ℤ) := by
      positivity
    have hc : ¬ ((purge window tNow ts).length : ℤ) < limit := by omega
    simp [admission, hc]
  · intro hw hl hmono
    have hnil : purge window tNow ts = [] := by
      refine List.filter_eq_nil_iff.mpr ?_
      intro a ha
      simp only [decide_eq_true_eq]
      push_neg
      have := hmono a ha
      linarith
    have hc : ((purge window tNow ts).length : ℤ) < limit := by
      rw [hnil]; simpa using hl
    simp [admission, hc]

/-- C4 amended witness: `limit = -1` rejects a fresh call outright;
`window = -1` admits a call even on a full record. -/
theorem C4_no_validation_witness :
    (admission (-1) 60 5 [0]).admitted = false
      ∧ (admission 5 (-1) 5 [0, 0, 0, 0, 0]).admitted = true :=
  ⟨(C4_no_validation (-1) 60 5 [0]).1 (by norm_num),
   (C4_no_validation 5 (-1) 5 [0, 0, 0, 0, 0]).2 (by norm_num) (by norm_num)
     (by intro t ht; simp only [List.mem_cons, List.not_mem_nil,
        or_false] at ht; rcases ht with h | h | h | h | h <;>
          (rw [h]; norm_num))⟩


/-- With a positive window, every timestamp in the record right after an
admission check is strictly inside the trailing window of the call. -/
theorem admit_mem_window (limit : ℤ) (window tNow : ℚ) (ts : List ℚ)
    (hW : 0 < window) (t : ℚ)
    (ht : t ∈ (admission limit window tNow ts).record) :
    tNow - window < t := by
  unfold admission at ht
  dsimp only at ht
  have hkept : ∀ s ∈ purge window tNow ts, tNow - window < s := by
    intro s hs
    have := List.of_mem_filter hs
    exact of_decide_eq_true this
  split at ht
  · rcases List.mem_append.mp ht with hk | hk
    · exact hkept t hk
    · rw [List.mem_singleton] at hk
      rw [hk]
      linarith
  · exact hkept t ht

/-- C5: immediately after every admission call at `t_now` with a positive
window `W`, every stored timestamp `t` satisfies `t > t_now - W`, and
when the per-key arrival times are non-decreasing the record stays in
insertion order, which is chronological order. -/
theorem C5_record_in_window_and_sorted (limit : ℤ) (window : ℚ)
    (calls : List ℚ) (tNow : ℚ) (hW : 0 < window) :
    (∀ t ∈ (admission limit window tNow
        (recordAfter limit window calls)).record, tNow - window < t)
    ∧ (List.Sorted (· ≤ ·) (calls ++ [tNow]) →
        List.Sorted (· ≤ ·) (admission limit window tNow
          (recordAfter limit window calls)).record) := by
  constructor
  · exact fun t ht => admit_mem_window limit window tNow _ hW t ht
  · intro hsorted
    rcases List.pairwise_append.mp hsorted with ⟨hcalls, -, hcross⟩
    have hrec : List.Sorted (· ≤ ·) (recordAfter limit window calls) :=
      foldl_admit_sorted limit window calls [] (List.sorted_nil)
        hcalls (by intro t ht; cases ht)
    refine admit_sorted limit window tNow _ hrec ?_
    intro t ht
    rcases mem_recordAfter_aux limit window calls [] t ht with h | h
    · cases h
    · exact hcross t h tNow (List.mem_singleton_self tNow)

/-- C5 witness: two in-order calls at times 0 and 30 against limit 5,
then a third at time 45. -/
theorem C5_record_in_window_and_sorted_witness :
    (∀ t ∈ (admission 5 60 45 (recordAfter 5 60 [0, 30])).record,
        (45 : ℚ) - 60 < t)
    ∧ List.Sorted (· ≤ ·) (admission 5 60 45 (recordAfter 5 60 [0, 30])).record :=
  ⟨(C5_record_in_window_and_sorted 5 60 [0, 30] 45 (by norm_num)).1,
   (C5_record_in_window_and_sorted 5 60 [0, 30] 45 (by norm_num)).2
     (by norm_num [List.pairwise_append, List.pairwise_cons])⟩

/-- C6: the first admission call for a fresh key (empty record) with
`limit ≥ 1` is admitted. -/
theorem C6_fresh_key_admits (limit : ℤ) (window tNow : ℚ)
    (hl : 1 ≤ limit) :
    (admission limit window tNow []).admitted = true := by
  have hnil : purge window tNow [] = [] := rfl
  have hc : ((purge window tNow []).length : ℤ) < limit := by
    rw [hnil]
    simpa using hl
  simp [admission, hc]

/-- C6 witness: limit 1, window 60, first call at time 0. -/
theorem C6_fresh_key_admits_witness :
    (admission 1 60 0 []).admitted = true :=
  C6_fresh_key_admits 1 60 0 (by norm_num)

/-- C7: with positive limit `L` and positive window, `L` admission calls at
one instant `t` are all admitted, and the `(L+1)`th call at the same
instant is rejected. -/
theorem C7_same_instant_burst (limit : ℤ) (window t : ℚ)
    (hl : 0 < limit) (hW : 0 < window) :
    (∀ k : ℕ, (k : ℤ) < limit →
      (admission limit window t
        (recordAfter limit window (List.replicate k t))).admitted = true)
    ∧ (admission limit window t
        (recordAfter limit window (List.replicate limit.toNat t))).admitted
      = false := by
  have hkeep : ∀ n : ℕ,
      purge window t (List.replicate n t) = List.replicate n t := by
    intro n
    refine List.filter_eq_self.mpr ?_
    intro a ha
    rw [List.eq_of_mem_replicate ha]
    exact decide_eq_true (by linarith)
  constructor
  · intro k hk
    rw [recordAfter_replicate limit window t hW k hk.le]
    have hc : ((purge window t (List.replicate k t)).length : ℤ) < limit := by
      rw [hkeep k]
      simpa using hk
    simp [admission, hc]
  · rw [recordAfter_replicate limit window t hW limit.toNat (by omega)]
    have hc : ¬ ((purge window t
        (List.replicate limit.toNat t)).length : ℤ) < limit := by
      rw [hkeep]
      simp only [List.length_replicate]
      omega
    simp [admission, hc]

/-- C7 witness: limit 2 at instant 0 — the second call (one timestamp
recorded) is admitted, the third is rejected. -/
theorem C7_same_instant_burst_witness :
    (admission 2 60 0 (recordAfter 2 60 (List.replicate 1 0))).admitted = true
    ∧ (admission 2 60 0
        (recordAfter 2 60 (List.replicate (2 : ℤ).toNat 0))).admitted
      = false :=
  ⟨(C7_same_instant_burst 2 60 0 (by norm_num) (by norm_num)).1 1
      (by norm_num),
   (C7_same_instant_burst 2 60 0 (by norm_num) (by norm_num)).2⟩

/-- C8: a key at capacity (`L` timestamps all recorded at `t0`) admits
again when the next call arrives exactly one window after `t0`. -/
theorem C8_full_window_elapse_admits (limit : ℤ) (window t0 : ℚ)
    (hl : 0 < limit) :
    (admission limit window (t0 + window)
      (List.replicate limit.toNat t0)).admitted = true := by
  have hnil : purge window (t0 + window) (List.replicate limit.toNat t0)
      = [] := by
    refine List.filter_eq_nil_iff.mpr ?_
    intro a ha
    rw [List.eq_of_mem_replicate ha]
    simp
  have hc : ((purge window (t0 + window)
      (List.replicate limit.toNat t0)).length : ℤ) < limit := by
    rw [hnil]
    simpa using hl
  simp [admission, hc]

/-- C8 witness: limit 3, window 60, three timestamps at 5, next call at
65. -/
theorem C8_full_window_elapse_admits_witness :
    (admission 3 60 (5 + 60) (List.replicate (3 : ℤ).toNat 5)).admitted = true :=
  C8_full_window_elapse_admits 3 60 5 (by norm_num)

/-- C10: the `rate_limit` dependency keys an authenticated user as
`"user:{id}"` with cap `2 * RATE_LIMIT`, an anonymous client as
`"ip:{host}"` with cap `RATE_LIMIT`, and these two key families are
disjoint. -/
theorem C10_auth_key_and_cap (u : User) (h1 h2 : String) :
    rateKeyLimit (some u) h1 = ("user:" ++ toString u.id, 2 * RATE_LIMIT)
    ∧ rateKeyLimit none h2 = ("ip:" ++ h2, RATE_LIMIT)
    ∧ (rateKeyLimit (some u) h1).1 ≠ (rateKeyLimit none h2).1 := by
  refine ⟨by norm_num [rateKeyLimit, RATE_LIMIT], rfl, ?_⟩
  simp only [rateKeyLimit]
  intro h
  have hd := congrArg String.data h
  simp [String.data_append] at hd
